import Mathlib

/-!
A shallow embedding of the binary patch engine in `src/patcher.ts` of the
droid-patch repository, together with proofs about it.

Modelling conventions:
* A Node `Buffer` is a `List Nat` of byte values; a JavaScript string is a
  `List Nat` of UTF-16 code units.  The development only ever evaluates the
  text layer on code points of the Basic Multilingual Plane, where one code
  point is one UTF-16 unit.
* `Buffer.indexOf`, `Buffer.includes`, `Buffer.copy` and `Buffer#toString`
  with the utf-8 codec are Node built-ins; they are modelled here by
  `bufIndexOf`, `bufIncludes`, `writeAt` and `utf8Decode`.
* The `while (true)` loop of `findAllPositions` is modelled with a fuel
  argument of `buffer.length + 1`, which is enough fuel whenever the pattern
  is non-empty (the only supported inputs: the specification forbids empty
  patterns, on which the original loop would never terminate).
* The filesystem is an association list from paths to byte lists; console
  output, permission bits (`chmod`), the Windows `EBUSY` fallback and the
  macOS re-signing step have no effect on file bytes or on the returned
  result object and are outside the model (the model corresponds to a POSIX
  run where `writeFile` succeeds).
* JavaScript regular expressions are modelled for the literal fragment only:
  a pattern without metacharacters and a replacement without `$n` references,
  for which `RegExp.exec` with the `g` flag is exactly a forward
  non-overlapping substring scan over the decoded text and the computed
  replacement is the literal replacement text.
-/

namespace DroidPatch

/-- `matchAtL buf pat i` holds when the bytes of `buf` starting at index `i`
are exactly `pat` (in particular `i + pat.length ≤ buf.length` when `pat` is
non-empty). -/
def matchAtL (buf pat : List Nat) (i : Nat) : Bool :=
  decide ((buf.drop i).take pat.length = pat)

/-- Linear scan for the first index `i ≥ start` (within `fuel` candidates)
where `pat` occurs in `buf`; the scanning core of Node `Buffer.indexOf`. -/
def scanFrom (buf pat : List Nat) : Nat → Nat → Option Nat
  | _, 0 => none
  | i, fuel + 1 => if matchAtL buf pat i then some i else scanFrom buf pat (i + 1) fuel

/-- Model of Node `buffer.indexOf(pattern, byteOffset)`: the least index
`i ≥ pos` at which `pattern` occurs, `none` replacing the original `-1`.
For an empty pattern Node returns `min pos buf.length`. -/
def bufIndexOf (buf pat : List Nat) (pos : Nat) : Option Nat :=
  if pat.isEmpty then some (min pos buf.length)
  else scanFrom buf pat pos (buf.length + 1 - pos)

/-- Model of Node `buffer.includes(value)`. -/
def bufIncludes (buf pat : List Nat) : Bool :=
  (bufIndexOf buf pat 0).isSome

/-- The loop body of `findAllPositions` (src/patcher.ts:413-425), with fuel
standing in for the unbounded `while (true)`. -/
def findAllPositionsAux : Nat → List Nat → List Nat → Nat → List Nat
  | 0, _, _, _ => []
  | fuel + 1, buf, pat, pos =>
    match bufIndexOf buf pat pos with
    | none => []
    | some p => p :: findAllPositionsAux fuel buf pat (p + pat.length)

/-- `findAllPositions` from src/patcher.ts:413-425: all starting offsets of
non-overlapping occurrences of `pat` in `buf`, scanning forward and
restarting right after the end of each match.  `buf.length + 1` units of
fuel are enough for every non-empty pattern. -/
def findAllPositions (buf pat : List Nat) : List Nat :=
  findAllPositionsAux (buf.length + 1) buf pat 0

/-- Model of Node `source.copy(target, targetStart)` (and of
`source.copy(target, targetStart, 0, source.length)`): overwrite the bytes of
`b` starting at `pos` with `r`, truncating at the end of `b`; the length of
`b` never changes. -/
def writeAt (b : List Nat) (pos : Nat) (r : List Nat) : List Nat :=
  b.take pos ++ r.take (b.length - pos) ++ b.drop (pos + r.length)

/-! ### UTF-8 text layer

`workingBuffer.toString("utf-8")` decodes the buffer to a JavaScript string;
`Buffer.from(s, "utf-8")` encodes back.  The model covers scalar values of
the Basic Multilingual Plane (1, 2 and 3 byte sequences); malformed bytes
decode to U+FFFD one byte at a time.  All buffers decoded in this
development are well-formed. -/

/-- Lower bound for the second byte of a 3-byte sequence with lead `b`. -/
def cont2Lo (b : Nat) : Nat := if b = 224 then 160 else 128

/-- Upper bound for the second byte of a 3-byte sequence with lead `b`. -/
def cont2Hi (b : Nat) : Nat := if b = 237 then 159 else 191

/-- Decode a UTF-8 byte list to the list of UTF-16 code units of the
corresponding JavaScript string (BMP fragment). -/
def utf8Decode : List Nat → List Nat
  | [] => []
  | [b] => if b < 128 then [b] else [65533]
  | [b, b2] =>
    if b < 128 then b :: utf8Decode [b2]
    else if 194 ≤ b ∧ b ≤ 223 ∧ 128 ≤ b2 ∧ b2 ≤ 191 then
      [(b - 192) * 64 + (b2 - 128)]
    else 65533 :: utf8Decode [b2]
  | b :: b2 :: b3 :: rest =>
    if b < 128 then b :: utf8Decode (b2 :: b3 :: rest)
    else if 194 ≤ b ∧ b ≤ 223 then
      if 128 ≤ b2 ∧ b2 ≤ 191 then
        ((b - 192) * 64 + (b2 - 128)) :: utf8Decode (b3 :: rest)
      else 65533 :: utf8Decode (b2 :: b3 :: rest)
    else if 224 ≤ b ∧ b ≤ 239 then
      if cont2Lo b ≤ b2 ∧ b2 ≤ cont2Hi b ∧ 128 ≤ b3 ∧ b3 ≤ 191 then
        ((b - 224) * 4096 + (b2 - 128) * 64 + (b3 - 128)) :: utf8Decode rest
      else 65533 :: utf8Decode (b2 :: b3 :: rest)
    else 65533 :: utf8Decode (b2 :: b3 :: rest)

/-- Encode one BMP code point as UTF-8 bytes. -/
def utf8EncodeChar (c : Nat) : List Nat :=
  if c < 128 then [c]
  else if c < 2048 then [192 + c / 64, 128 + c % 64]
  else [224 + c / 4096, 128 + (c / 64) % 64, 128 + c % 64]

/-- Model of `Buffer.from(text, "utf-8")` on BMP text. -/
def utf8Encode (l : List Nat) : List Nat :=
  (l.map utf8EncodeChar).flatten

/-! ### Data model (src/patcher.ts:9-49) -/

/-- One `(pattern, replacement)` entry of `Patch.variants`. -/
structure Variant where
  pattern : List Nat
  replacement : List Nat
deriving Repr, DecidableEq

/-- The `regexPattern` / `regexReplacement` / `alreadyPatchedRegexPattern`
triple of a `Patch`, restricted to the literal fragment of JavaScript
regular expressions (see the module comment): each field is the UTF-16 unit
list of a literal text. -/
structure RegexLit where
  source : List Nat
  replacementText : List Nat
  alreadyPat : Option (List Nat) := none
deriving Repr, DecidableEq

/-- The `Patch` interface (src/patcher.ts:9-23).  `regexLit = some r` models
the case where both `regexPattern` and `regexReplacement` are present. -/
structure Patch where
  name : String
  description : String := ""
  pattern : List Nat := []
  replacement : List Nat := []
  variants : List Variant := []
  regexLit : Option RegexLit := none
deriving Repr, DecidableEq

/-- The `PatchOptions` interface (src/patcher.ts:25-32), with the defaults
applied by the destructuring at src/patcher.ts:52-59. -/
structure PatchOptions where
  inputPath : String
  outputPath : Option String := none
  patches : List Patch
  dryRun : Bool := false
  backup : Bool := true
  verbose : Bool := false

/-- The per-descriptor `PatchResult` (src/patcher.ts:34-40).  The optional
fields `positions` and `alreadyPatched` are `undefined` when omitted in the
original; `undefined` is only ever consumed truthily there, so the model
uses `none` and a default `false`. -/
structure PatchResult where
  name : String
  found : Nat
  positions : Option (List Nat) := none
  success : Bool
  alreadyPatched : Bool := false
deriving Repr, DecidableEq

/-- The `PatchDroidResult` interface (src/patcher.ts:42-49); optional fields
default to `none` / `false` standing for `undefined`. -/
structure PatchDroidResult where
  success : Bool
  dryRun : Bool := false
  results : List PatchResult
  outputPath : Option String := none
  noPatchNeeded : Bool := false
  patchedCount : Option Nat := none
deriving Repr, DecidableEq

/-- The variant list assembled at src/patcher.ts:164-167: the top-level
`(pattern, replacement)` pair followed by `patch.variants`. -/
def allVariants (p : Patch) : List Variant :=
  ⟨p.pattern, p.replacement⟩ :: p.variants

/-- The variant search loop (src/patcher.ts:170-178): the first variant
whose pattern occurs at least once, together with its occurrence list. -/
def findVariant : List Variant → List Nat → Option (Variant × List Nat)
  | [], _ => none
  | v :: vs, wb =>
    let ps := findAllPositions wb v.pattern
    if ps.isEmpty then findVariant vs wb else some (v, ps)

/-- The regex apply loop (src/patcher.ts:134-152) for a literal regex: `n`
iterations, each locating the matched text by a byte search from offset 0 in
the current buffer and overwriting it there with the replacement bytes. -/
def applyRegexN (mb rb : List Nat) : Nat → List Nat → List Nat
  | 0, b => b
  | n + 1, b =>
    match bufIndexOf b mb 0 with
    | some bp => applyRegexN mb rb n (writeAt b bp rb)
    | none => applyRegexN mb rb n b

/-- Processing of one descriptor against the current working buffer
(the loop body src/patcher.ts:83-238), returning the pushed `PatchResult`
and the updated working buffer. -/
def processPatch (p : Patch) (wb : List Nat) (dryRun : Bool) :
    PatchResult × List Nat :=
  match p.regexLit with
  | some r =>
    -- Regex branch (src/patcher.ts:89-162), literal fragment: every match
    -- is the literal source text and every computed replacement is the
    -- literal replacement text; `regex.exec` with the `g` flag is the
    -- forward non-overlapping scan over the decoded text.
    let content := utf8Decode wb
    let foundMatches := findAllPositions content r.source
    if foundMatches.isEmpty then
      let alreadyPatched :=
        match r.alreadyPat with
        | some a => bufIncludes content a
        | none => bufIncludes content (r.replacementText.take 20)
      ({ name := p.name, found := 0, success := alreadyPatched,
         alreadyPatched := alreadyPatched }, wb)
    else
      let wb' := if dryRun then wb
        else applyRegexN (utf8Encode r.source) (utf8Encode r.replacementText)
          foundMatches.length wb
      ({ name := p.name, found := foundMatches.length, positions := some foundMatches,
         success := true }, wb')
  | none =>
    match findVariant (allVariants p) wb with
    | none =>
      -- Not-found branch (src/patcher.ts:180-204).
      let ap := (allVariants p).any fun v => bufIncludes wb v.replacement
      let totalReplacementPositions :=
        ((allVariants p).map fun v =>
          (findAllPositions wb v.replacement).length).sum
      if 0 < totalReplacementPositions then
        ({ name := p.name, found := 0, success := true,
           alreadyPatched := true }, wb)
      else
        ({ name := p.name, found := 0, success := false,
           alreadyPatched := ap }, wb)
    | some (v, positions) =>
      -- Found branch: immediate application (src/patcher.ts:225-237).
      let wb' := if dryRun then wb
        else positions.foldl (fun b pos => writeAt b pos v.replacement) wb
      ({ name := p.name, found := positions.length,
         positions := some positions, success := true }, wb')

/-- The descriptor loop (src/patcher.ts:83-238): results in order, working
buffer threaded through. -/
def processPatches : List Patch → List Nat → Bool → List PatchResult × List Nat
  | [], wb, _ => ([], wb)
  | p :: ps, wb, dryRun =>
    let step := processPatch p wb dryRun
    let rest := processPatches ps step.2 dryRun
    (step.1 :: rest.1, rest.2)

/-- Post-write verification of one descriptor (src/patcher.ts:334-373):
regex descriptors are verified by the original pattern no longer matching
the decoded output; byte descriptors by a zero total occurrence count of all
non-empty variant patterns. -/
def verifyPatch (p : Patch) (vb : List Nat) : Bool :=
  match p.regexLit with
  | some r => (findAllPositions (utf8Decode vb) r.source).length == 0
  | none =>
    let oldCount :=
      ((allVariants p).map fun v =>
        if 0 < v.pattern.length then (findAllPositions vb v.pattern).length
        else 0).sum
    oldCount == 0

/-- `allVerified` (src/patcher.ts:333-373). -/
def verifyPatches (ps : List Patch) (vb : List Nat) : Bool :=
  ps.all fun p => verifyPatch p vb

/-! ### Filesystem model

File contents only; permission bits and timestamps are outside the model. -/

/-- A filesystem: an association list from paths to byte contents. -/
def FS : Type := List (String × List Nat)

/-- Read a file (`readFile`, also the content test of `existsSync`). -/
def fsRead (fs : FS) (p : String) : Option (List Nat) :=
  (List.find? (fun e => e.1 == p) fs).map (·.2)

/-- Write a file (`writeFile`): replaces any previous content. -/
def fsWrite (fs : FS) (p : String) (d : List Nat) : FS :=
  (p, d) :: List.filter (fun e => !(e.1 == p)) fs

/-- `copyFile src dst`. -/
def fsCopy (fs : FS) (src dst : String) : FS :=
  match fsRead fs src with
  | some d => fsWrite fs dst d
  | none => fs

/-- `patchDroid` (src/patcher.ts:51-411) over the filesystem model.  A
missing input file raises, modelled by `Except.error`; otherwise the result
object and the final filesystem are returned. -/
def patchDroid (opts : PatchOptions) (fs : FS) :
    Except String (PatchDroidResult × FS) :=
  let finalOutputPath := opts.outputPath.getD (opts.inputPath ++ ".patched")
  match fsRead fs opts.inputPath with
  | none => .error ("Binary not found: " ++ opts.inputPath)
  | some data =>
    let processed := processPatches opts.patches data opts.dryRun
    let results := processed.1
    let workingBuffer := processed.2
    if opts.dryRun then
      .ok ({ success := results.all fun r => r.success || r.alreadyPatched,
             dryRun := true, results := results }, fs)
    else
      let patchesNeeded :=
        results.filter fun r => decide (0 < r.found) && !r.alreadyPatched
      if patchesNeeded.isEmpty then
        if results.all (·.alreadyPatched) then
          .ok ({ success := true, outputPath := some opts.inputPath,
                 results := results, noPatchNeeded := true }, fs)
        else
          .ok ({ success := false, results := results }, fs)
      else
        let fs1 :=
          if opts.backup then
            if (fsRead fs (opts.inputPath ++ ".backup")).isSome then fs
            else fsCopy fs opts.inputPath (opts.inputPath ++ ".backup")
          else fs
        let totalPatched :=
          (results.map fun r => (r.positions.getD []).length).sum
        let fs2 := fsWrite fs1 finalOutputPath workingBuffer
        let verifyBuffer := (fsRead fs2 finalOutputPath).getD []
        let allVerified := verifyPatches opts.patches verifyBuffer
        .ok ({ success := allVerified, outputPath := some finalOutputPath,
               results := results, patchedCount := some totalPatched }, fs2)

/-! ### Ghost write traces

The exact sequence of `(offset, bytes)` overwrites a live run performs on the
working buffer, mirroring `processPatch` / `processPatches`; used to state
the frame property. -/

/-- Writes performed by `n` iterations of the regex apply loop. -/
def regexWriteTrace (mb rb : List Nat) : Nat → List Nat → List (Nat × List Nat)
  | 0, _ => []
  | n + 1, b =>
    match bufIndexOf b mb 0 with
    | some bp => (bp, rb) :: regexWriteTrace mb rb n (writeAt b bp rb)
    | none => regexWriteTrace mb rb n b

/-- Writes a live `processPatch` performs on `wb`. -/
def writeTracePatch (p : Patch) (wb : List Nat) : List (Nat × List Nat) :=
  match p.regexLit with
  | some r =>
    let foundMatches := findAllPositions (utf8Decode wb) r.source
    if foundMatches.isEmpty then []
    else regexWriteTrace (utf8Encode r.source) (utf8Encode r.replacementText)
      foundMatches.length wb
  | none =>
    match findVariant (allVariants p) wb with
    | none => []
    | some (v, positions) => positions.map fun pos => (pos, v.replacement)

/-- Writes a live `processPatches` run performs, in order. -/
def writeTraceAll : List Patch → List Nat → List (Nat × List Nat)
  | [], _ => []
  | p :: ps, wb =>
    writeTracePatch p wb ++ writeTraceAll ps (processPatch p wb false).2

/-- Replay a write trace. -/
def runTrace (tr : List (Nat × List Nat)) (b : List Nat) : List Nat :=
  tr.foldl (fun acc w => writeAt acc w.1 w.2) b

/-- Well-formedness of a descriptor, as required by the specification: every
variant pattern and replacement is non-empty, and a regex source is
non-empty.  On empty patterns the original `while` loops would not
terminate, so such descriptors are outside the model. -/
def wfPatch (p : Patch) : Bool :=
  ((allVariants p).all fun v => !v.pattern.isEmpty && !v.replacement.isEmpty)
    && (match p.regexLit with
        | some r => !r.source.isEmpty
        | none => true)

/-! ### Concrete scenarios used by the theorems below -/

/-- Byte value notes: 97 = a, 98 = b, 99 = c, 113 = q, 120 = x, 121 = y,
122 = z; [195, 169] is the UTF-8 encoding of U+00E9. -/
def abcBuf : List Nat := [97, 98, 99]

/-- Rewrites the byte a to x. -/
def dOne : Patch := { name := "d1", pattern := [97], replacement := [120] }

/-- Rewrites xb (present only after `dOne` has run) to yz. -/
def dTwo : Patch := { name := "d2", pattern := [120, 98], replacement := [121, 122] }

/-- Filesystem holding only the input binary for the ordering scenario. -/
def fsOrd : FS := [("bin", abcBuf)]

/-- Live options running `dOne` then `dTwo`. -/
def optsOrd12 : PatchOptions :=
  { inputPath := "bin", patches := [dOne, dTwo], backup := false }

/-- Live options running `dTwo` then `dOne`. -/
def optsOrd21 : PatchOptions :=
  { inputPath := "bin", patches := [dTwo, dOne], backup := false }

/-- A descriptor whose pattern q and replacement z are both absent from
ab. -/
def dAbsent : Patch := { name := "dB", pattern := [113], replacement := [122] }

/-- Filesystem for the mixed success scenario. -/
def fsMix : FS := [("bin", [97, 98])]

/-- Live options with one applicable descriptor and one absent one. -/
def optsMix : PatchOptions :=
  { inputPath := "bin", patches := [dOne, dAbsent], backup := false }

/-- In-place options (output path equals input path) for the double
invocation backup scenario, with backups enabled. -/
def optsBk : PatchOptions :=
  { inputPath := "bin", outputPath := some "bin", patches := [dOne] }

/-- Filesystem for the backup scenario. -/
def fsBk : FS := [("bin", [97, 98])]

/-- Live options with only the inapplicable descriptor. -/
def optsFail : PatchOptions :=
  { inputPath := "bin", patches := [dAbsent], backup := false }

/-- An input whose bytes xb are the already-patched form for `dOne`. -/
def fsAP : FS := [("bin", [120, 98])]

/-- Live options for the idempotence scenario. -/
def optsAP : PatchOptions := { inputPath := "bin", patches := [dOne] }

/-- Dry-run options over one applicable and one inapplicable descriptor. -/
def optsDry : PatchOptions :=
  { inputPath := "bin", patches := [dOne, dAbsent], dryRun := true }

/-- The filesystem after the first in-place invocation of `optsBk` on
`fsBk`: the binary is patched and the backup holds the original bytes. -/
def fsBk1 : FS := [("bin", [120, 98]), ("bin.backup", [97, 98])]

/-- A filesystem whose backup file pre-exists with unrelated content. -/
def fsBkPre : FS := [("bin", [97, 98]), ("bin.backup", [5, 6])]

/-- A buffer starting with a two-byte UTF-8 character: é followed by ab. -/
def eAbBuf : List Nat := [195, 169, 97, 98]

/-- A literal regex descriptor replacing the text ab by cd. -/
def pRegex : Patch :=
  { name := "rx", regexLit := some { source := [97, 98], replacementText := [99, 100] } }

/-! ## Lemmas about the pattern matcher -/

/-- An empty pattern matches everywhere. -/
theorem matchAtL_nil (buf : List Nat) (i : Nat) : matchAtL buf [] i = true := by
  simp [matchAtL]

/-- A non-empty match lies entirely inside the buffer. -/
theorem matchAtL_le (buf pat : List Nat) (i : Nat) (hp : pat ≠ [])
    (h : matchAtL buf pat i = true) : i + pat.length ≤ buf.length := by
  have h' : (buf.drop i).take pat.length = pat := of_decide_eq_true h
  have hlen : ((buf.drop i).take pat.length).length = pat.length := by rw [h']
  simp only [List.length_take, List.length_drop] at hlen
  have hp' : 0 < pat.length := List.length_pos.mpr hp
  omega

/-- `scanFrom` returns the least matching index at or after `i`. -/
theorem scanFrom_some {buf pat : List Nat} :
    ∀ {fuel i p : Nat}, scanFrom buf pat i fuel = some p →
      i ≤ p ∧ matchAtL buf pat p = true ∧
        ∀ j, i ≤ j → j < p → matchAtL buf pat j = false := by
  intro fuel
  induction fuel with
  | zero => intro i p h; simp [scanFrom] at h
  | succ n ih =>
    intro i p h
    by_cases hm : matchAtL buf pat i = true
    · simp [scanFrom, hm] at h
      subst h
      exact ⟨le_refl _, hm, fun j h1 h2 => absurd h1 (by omega)⟩
    · simp [scanFrom, hm] at h
      obtain ⟨h1, h2, h3⟩ := ih h
      refine ⟨by omega, h2, fun j hj1 hj2 => ?_⟩
      rcases Nat.eq_or_lt_of_le hj1 with rfl | hlt
      · simpa using hm
      · exact h3 j hlt hj2

/-- A failed `scanFrom` scan saw no match among its `fuel` candidates. -/
theorem scanFrom_none {buf pat : List Nat} :
    ∀ {fuel i : Nat}, scanFrom buf pat i fuel = none →
      ∀ j, i ≤ j → j < i + fuel → matchAtL buf pat j = false := by
  intro fuel
  induction fuel with
  | zero => intro i _ j h1 h2; omega
  | succ n ih =>
    intro i h j h1 h2
    by_cases hm : matchAtL buf pat i = true
    · simp [scanFrom, hm] at h
    · simp [scanFrom, hm] at h
      rcases Nat.eq_or_lt_of_le h1 with rfl | hlt
      · simpa using hm
      · exact ih h j hlt (by omega)

/-- The positive characterisation of `Buffer.indexOf` for non-empty
patterns: least match at or after `pos`. -/
theorem bufIndexOf_some {buf pat : List Nat} {pos p : Nat} (hp : pat ≠ [])
    (h : bufIndexOf buf pat pos = some p) :
    pos ≤ p ∧ matchAtL buf pat p = true ∧
      ∀ j, pos ≤ j → j < p → matchAtL buf pat j = false := by
  unfold bufIndexOf at h
  rw [if_neg (by simpa [List.isEmpty_iff] using hp)] at h
  exact scanFrom_some h

/-- The negative characterisation of `Buffer.indexOf` for non-empty
patterns: no match anywhere at or after `pos`. -/
theorem bufIndexOf_none {buf pat : List Nat} {pos : Nat} (hp : pat ≠ [])
    (h : bufIndexOf buf pat pos = none) :
    ∀ j, pos ≤ j → matchAtL buf pat j = false := by
  intro j hj
  by_cases hm : matchAtL buf pat j = true
  · exfalso
    have hle := matchAtL_le buf pat j hp hm
    have hp' : 0 < pat.length := List.length_pos.mpr hp
    unfold bufIndexOf at h
    rw [if_neg (by simpa [List.isEmpty_iff] using hp)] at h
    have := scanFrom_none h j hj (by omega)
    rw [hm] at this
    exact Bool.true_eq_false.mp this
  · simpa using hm

/-- Past the end of the buffer, `Buffer.indexOf` finds nothing. -/
theorem bufIndexOf_none_of_big {buf pat : List Nat} {pos : Nat} (hp : pat ≠ [])
    (h : buf.length < pos) : bufIndexOf buf pat pos = none := by
  unfold bufIndexOf
  rw [if_neg (by simpa [List.isEmpty_iff] using hp)]
  have hz : buf.length + 1 - pos = 0 := by omega
  rw [hz]
  rfl

/-- Every offset returned by the scan is an exact occurrence. -/
theorem findAllPositionsAux_mem_match {buf pat : List Nat} :
    ∀ {fuel pos q : Nat}, q ∈ findAllPositionsAux fuel buf pat pos →
      matchAtL buf pat q = true := by
  intro fuel
  induction fuel with
  | zero => intro pos q h; simp [findAllPositionsAux] at h
  | succ n ih =>
    intro pos q h
    rcases hidx : bufIndexOf buf pat pos with _ | p
    · simp [findAllPositionsAux, hidx] at h
    · simp only [findAllPositionsAux, hidx, List.mem_cons] at h
      rcases h with rfl | h
      · rcases List.eq_nil_or_concat pat with rfl | _
        · exact matchAtL_nil buf q
        · rcases hpat : pat with _ | _
          · exact matchAtL_nil buf q
          · exact (bufIndexOf_some (by simp [hpat]) (hpat ▸ hidx)).2.1
      · exact ih h

/-- Every offset returned by a scan starting at `pos` is at least `pos`. -/
theorem findAllPositionsAux_mem_le {buf pat : List Nat} (hp : pat ≠ []) :
    ∀ {fuel pos q : Nat}, q ∈ findAllPositionsAux fuel buf pat pos → pos ≤ q := by
  intro fuel
  induction fuel with
  | zero => intro pos q h; simp [findAllPositionsAux] at h
  | succ n ih =>
    intro pos q h
    rcases hidx : bufIndexOf buf pat pos with _ | p
    · simp [findAllPositionsAux, hidx] at h
    · simp only [findAllPositionsAux, hidx, List.mem_cons] at h
      have h1 := (bufIndexOf_some hp hidx).1
      rcases h with rfl | h
      · exact h1
      · have := ih h
        have hp' : 0 < pat.length := List.length_pos.mpr hp
        omega

/-- Consecutive and non-consecutive returned offsets are separated by at
least the pattern length: matches never overlap. -/
theorem findAllPositionsAux_pairwise {buf pat : List Nat} (hp : pat ≠ []) :
    ∀ {fuel pos : Nat},
      List.Pairwise (fun a b => a + pat.length ≤ b)
        (findAllPositionsAux fuel buf pat pos) := by
  intro fuel
  induction fuel with
  | zero => intro pos; simp [findAllPositionsAux]
  | succ n ih =>
    intro pos
    rcases hidx : bufIndexOf buf pat pos with _ | p
    · simp [findAllPositionsAux, hidx]
    · simp only [findAllPositionsAux, hidx]
      exact List.Pairwise.cons (fun q hq => findAllPositionsAux_mem_le hp hq) ih

/-- Extra fuel beyond `buf.length + 1 - pos` never changes the scan: the
original `while (true)` loop terminates within that many iterations. -/
theorem findAllPositionsAux_fuel {buf pat : List Nat} (hp : pat ≠ []) :
    ∀ {fuel pos : Nat} (k : Nat), buf.length + 1 ≤ fuel + pos →
      findAllPositionsAux (fuel + k) buf pat pos =
        findAllPositionsAux fuel buf pat pos := by
  intro fuel
  induction fuel with
  | zero =>
    intro pos k h
    rcases k with _ | k
    · rfl
    · show findAllPositionsAux (0 + (k + 1)) buf pat pos = []
      rw [Nat.zero_add]
      have hb : bufIndexOf buf pat pos = none :=
        bufIndexOf_none_of_big hp (by omega)
      simp [findAllPositionsAux, hb]
  | succ n ih =>
    intro pos k h
    have hk : n + 1 + k = (n + k) + 1 := by omega
    rw [hk]
    rcases hidx : bufIndexOf buf pat pos with _ | p
    · simp [findAllPositionsAux, hidx]
    · have h1 := (bufIndexOf_some hp hidx).1
      have hp' : 0 < pat.length := List.length_pos.mpr hp
      simp only [findAllPositionsAux, hidx]
      rw [ih k (by omega)]

/-- Completeness of the scan with enough fuel: every occurrence either is
returned or overlaps a returned occurrence. -/
theorem findAllPositionsAux_complete {buf pat : List Nat} (hp : pat ≠ []) :
    ∀ {fuel pos : Nat}, buf.length + 1 ≤ fuel + pos →
      ∀ i, pos ≤ i → matchAtL buf pat i = true →
        ∃ q ∈ findAllPositionsAux fuel buf pat pos,
          q ≤ i ∧ i < q + pat.length := by
  intro fuel
  induction fuel with
  | zero =>
    intro pos h i hi hm
    have := matchAtL_le buf pat i hp hm
    have hp' : 0 < pat.length := List.length_pos.mpr hp
    omega
  | succ n ih =>
    intro pos h i hi hm
    rcases hidx : bufIndexOf buf pat pos with _ | p
    · have := bufIndexOf_none hp hidx i hi
      rw [hm] at this
      exact absurd this (by simp)
    · obtain ⟨hpp, hmp, hmin⟩ := bufIndexOf_some hp hidx
      have hp' : 0 < pat.length := List.length_pos.mpr hp
      by_cases hc1 : i < p
      · have := hmin i hi hc1
        rw [hm] at this
        exact absurd this (by simp)
      · by_cases hc2 : i < p + pat.length
        · exact ⟨p, by simp [findAllPositionsAux, hidx], by omega, hc2⟩
        · obtain ⟨q, hq1, hq2, hq3⟩ :=
            @ih (p + pat.length) (by omega) i (by omega) hm
          exact ⟨q, by simp [findAllPositionsAux, hidx, hq1], hq2, hq3⟩

/-- Claim C1.  For every byte buffer `B` and non-empty pattern `P`,
`findAllPositions` behaves as a terminating forward non-overlapping scan:
offsets are strictly ascending and separated by at least `P.length` (no two
matches overlap), the bytes at each returned offset equal `P` exactly, every
occurrence of `P` in `B` overlaps a returned match (the scan restarts right
after the end of each match and skips nothing else), any amount of extra
fuel leaves the result unchanged (the original unbounded loop terminates
within `B.length + 1` iterations), and the buffer aaa matched against the
pattern aa yields only offset 0. -/
theorem findAllPositions_forward_scan (B P : List Nat) (hP : P ≠ []) :
    List.Pairwise (fun a b => a < b) (findAllPositions B P) ∧
    List.Pairwise (fun a b => a + P.length ≤ b) (findAllPositions B P) ∧
    (∀ q ∈ findAllPositions B P, (B.drop q).take P.length = P) ∧
    (∀ i, (B.drop i).take P.length = P →
      ∃ q ∈ findAllPositions B P, q ≤ i ∧ i < q + P.length) ∧
    (∀ extra, findAllPositionsAux (B.length + 1 + extra) B P 0 =
      findAllPositions B P) ∧
    findAllPositions [97, 97, 97] [97, 97] = [0] := by
  have hp' : 0 < P.length := List.length_pos.mpr hP
  refine ⟨?_, findAllPositionsAux_pairwise hP, ?_, ?_, ?_, by decide⟩
  · exact (findAllPositionsAux_pairwise hP).imp (fun h => by omega)
  · intro q hq
    exact of_decide_eq_true (findAllPositionsAux_mem_match hq)
  · intro i hi
    exact findAllPositionsAux_complete hP (by omega) i (Nat.zero_le i)
      (decide_eq_true hi)
  · intro extra
    exact findAllPositionsAux_fuel hP extra (by omega)

/-- Closed instance of C1 at the buffer aaa and the pattern aa. -/
theorem findAllPositions_forward_scan_witness :
    List.Pairwise (fun a b => a < b) (findAllPositions [97, 97, 97] [97, 97]) ∧
    List.Pairwise (fun a b => a + ([97, 97] : List Nat).length ≤ b)
      (findAllPositions [97, 97, 97] [97, 97]) ∧
    (∀ q ∈ findAllPositions [97, 97, 97] [97, 97],
      (([97, 97, 97] : List Nat).drop q).take ([97, 97] : List Nat).length =
        [97, 97]) ∧
    (∀ i, (([97, 97, 97] : List Nat).drop i).take
        ([97, 97] : List Nat).length = [97, 97] →
      ∃ q ∈ findAllPositions [97, 97, 97] [97, 97],
        q ≤ i ∧ i < q + ([97, 97] : List Nat).length) ∧
    (∀ extra, findAllPositionsAux (([97, 97, 97] : List Nat).length + 1 + extra)
      [97, 97, 97] [97, 97] 0 = findAllPositions [97, 97, 97] [97, 97]) ∧
    findAllPositions [97, 97, 97] [97, 97] = [0] :=
  findAllPositions_forward_scan [97, 97, 97] [97, 97] (by decide)

/-! ## Lemmas about the engine loop -/

/-- Splitting the descriptor loop: the descriptors of `ps2` run against the
working buffer left behind by `ps1`. -/
theorem processPatches_append (ps1 ps2 : List Patch) (wb : List Nat)
    (dr : Bool) :
    processPatches (ps1 ++ ps2) wb dr =
      ((processPatches ps1 wb dr).1 ++
        (processPatches ps2 (processPatches ps1 wb dr).2 dr).1,
       (processPatches ps2 (processPatches ps1 wb dr).2 dr).2) := by
  induction ps1 generalizing wb with
  | nil => simp [processPatches]
  | cons p ps ih => simp [processPatches, ih]

/-- One result is pushed per descriptor: a failed descriptor never aborts
the processing of the remaining ones. -/
theorem processPatches_length (ps : List Patch) (wb : List Nat) (dr : Bool) :
    (processPatches ps wb dr).1.length = ps.length := by
  induction ps generalizing wb with
  | nil => simp [processPatches]
  | cons p ps ih => simp [processPatches, ih]

/-- A dry run never mutates the working buffer (single descriptor). -/
theorem processPatch_dry (p : Patch) (wb : List Nat) :
    (processPatch p wb true).2 = wb := by
  unfold processPatch
  rcases p.regexLit with _ | r
  · rcases findVariant (allVariants p) wb with _ | vp
    · simp only []
      split <;> rfl
    · rfl
  · simp only []
    split <;> rfl

/-- A dry run never mutates the working buffer. -/
theorem processPatches_dry (ps : List Patch) (wb : List Nat) :
    (processPatches ps wb true).2 = wb := by
  induction ps generalizing wb with
  | nil => rfl
  | cons p ps ih => simp [processPatches, processPatch_dry, ih]

/-- Overwriting in place never changes the buffer length. -/
theorem writeAt_length (b : List Nat) (pos : Nat) (r : List Nat) :
    (writeAt b pos r).length = b.length := by
  simp only [writeAt, List.length_append, List.length_take, List.length_drop]
  omega

/-- The positional-overwrite fold of the found branch preserves length. -/
theorem foldl_writeAt_length (ps : List Nat) (r : List Nat) :
    ∀ b : List Nat,
      (ps.foldl (fun b pos => writeAt b pos r) b).length = b.length := by
  induction ps with
  | nil => intro b; rfl
  | cons p ps ih => intro b; rw [List.foldl_cons, ih, writeAt_length]

/-- The regex apply loop preserves length. -/
theorem applyRegexN_length (mb rb : List Nat) :
    ∀ (n : Nat) (b : List Nat), (applyRegexN mb rb n b).length = b.length := by
  intro n
  induction n with
  | zero => intro b; rfl
  | succ n ih =>
    intro b
    unfold applyRegexN
    rcases bufIndexOf b mb 0 with _ | bp
    · exact ih b
    · rw [ih, writeAt_length]

/-- One descriptor preserves the working buffer length. -/
theorem processPatch_length (p : Patch) (wb : List Nat) (dr : Bool) :
    (processPatch p wb dr).2.length = wb.length := by
  unfold processPatch
  rcases p.regexLit with _ | r
  · rcases findVariant (allVariants p) wb with _ | vp
    · simp only []
      split <;> rfl
    · simp only []
      rcases dr with _ | _
      · simp [foldl_writeAt_length]
      · rfl
  · simp only []
    split
    · rfl
    · rcases dr with _ | _
      · simp [applyRegexN_length]
      · rfl

/-- The whole descriptor loop preserves the working buffer length: every
edit is an in-place overwrite. -/
theorem processPatches_buflen (ps : List Patch) (wb : List Nat) (dr : Bool) :
    (processPatches ps wb dr).2.length = wb.length := by
  induction ps generalizing wb with
  | nil => rfl
  | cons p ps ih =>
    simp only [processPatches]
    rw [ih, processPatch_length]

/-! ## Lemmas about the filesystem model -/

/-- Reading back a written file yields the written bytes. -/
theorem fsRead_fsWrite_same (fs : FS) (p : String) (d : List Nat) :
    fsRead (fsWrite fs p d) p = some d := by
  simp [fsRead, fsWrite, List.find?]

/-- A `find?` for one key is unaffected by filtering out another key. -/
theorem find?_filter_ne (fs : List (String × List Nat)) (p q : String)
    (h : q ≠ p) :
    List.find? (fun e => e.1 == q) (List.filter (fun e => !(e.1 == p)) fs) =
      List.find? (fun e => e.1 == q) fs := by
  induction fs with
  | nil => rfl
  | cons a t ih =>
    by_cases hp : a.1 = p
    · have hq : ¬a.1 = q := by rw [hp]; exact fun he => h he.symm
      have hpq : (p == q) = false :=
        beq_eq_false_iff_ne.mpr fun he => h he.symm
      simp [List.filter_cons, List.find?_cons, hp, hq, hpq, ih]
    · by_cases hq : a.1 = q
      · simp [List.filter_cons, List.find?_cons, hp, hq, h]
      · simp [List.filter_cons, List.find?_cons, hp, hq, ih]

/-- Writing one path leaves every other path unchanged. -/
theorem fsRead_fsWrite_ne (fs : FS) (p q : String) (d : List Nat)
    (h : q ≠ p) : fsRead (fsWrite fs p d) q = fsRead fs q := by
  have hpq : (p == q) = false := beq_eq_false_iff_ne.mpr fun he => h he.symm
  simp only [fsRead, fsWrite, List.find?_cons, hpq]
  rw [find?_filter_ne fs p q h]

/-! ## Frame lemmas: an in-place overwrite touches only its own region -/

/-- Outside `[pos, pos + r.length)` an overwrite changes nothing. -/
theorem writeAt_getElem?_frame (b : List Nat) (pos : Nat) (r : List Nat)
    (j : Nat) (h : j < pos ∨ pos + r.length ≤ j) :
    (writeAt b pos r)[j]? = b[j]? := by
  simp only [writeAt, List.getElem?_append, List.getElem?_take,
    List.getElem?_drop, List.length_take, List.length_append,
    List.length_drop, Nat.min_def]
  split_ifs <;>
    first
      | rfl
      | omega
      | (rw [List.getElem?_eq_none (by omega), List.getElem?_eq_none (by omega)])
      | (congr 1; omega)

/-- Unfolding of `runTrace` on a cons. -/
theorem runTrace_cons (w : Nat × List Nat) (tr : List (Nat × List Nat))
    (b : List Nat) : runTrace (w :: tr) b = runTrace tr (writeAt b w.1 w.2) :=
  rfl

/-- `runTrace` distributes over trace concatenation. -/
theorem runTrace_append (t1 t2 : List (Nat × List Nat)) (b : List Nat) :
    runTrace (t1 ++ t2) b = runTrace t2 (runTrace t1 b) := by
  simp [runTrace, List.foldl_append]

/-- A byte outside every overwritten region of a trace is untouched. -/
theorem runTrace_frame (tr : List (Nat × List Nat)) (j : Nat)
    (h : ∀ w ∈ tr, j < w.1 ∨ w.1 + w.2.length ≤ j) :
    ∀ b : List Nat, (runTrace tr b)[j]? = b[j]? := by
  induction tr with
  | nil => intro b; rfl
  | cons w tr ih =>
    intro b
    rw [runTrace_cons, ih (fun x hx => h x (List.mem_cons_of_mem w hx)),
      writeAt_getElem?_frame b w.1 w.2 j (h w (List.mem_cons_self w tr))]

/-- The regex apply loop is the replay of its own write trace. -/
theorem applyRegexN_trace (mb rb : List Nat) :
    ∀ (n : Nat) (b : List Nat),
      applyRegexN mb rb n b = runTrace (regexWriteTrace mb rb n b) b := by
  intro n
  induction n with
  | zero => intro b; rfl
  | succ n ih =>
    intro b
    rcases hidx : bufIndexOf b mb 0 with _ | bp
    · simp only [applyRegexN, regexWriteTrace, hidx]
      exact ih b
    · simp only [applyRegexN, regexWriteTrace, hidx]
      rw [ih, runTrace_cons]

/-- One live descriptor mutates the buffer exactly by its write trace. -/
theorem processPatch_trace (p : Patch) (wb : List Nat) :
    (processPatch p wb false).2 = runTrace (writeTracePatch p wb) wb := by
  unfold processPatch writeTracePatch
  rcases p.regexLit with _ | r
  · rcases findVariant (allVariants p) wb with _ | vp
    · simp only []
      split <;> rfl
    · obtain ⟨v, ps⟩ := vp
      show ps.foldl (fun b pos => writeAt b pos v.replacement) wb =
        runTrace (ps.map fun pos => (pos, v.replacement)) wb
      rw [runTrace, List.foldl_map]
  · simp only []
    split
    · rfl
    · exact applyRegexN_trace _ _ _ wb

/-- A live run mutates the buffer exactly by its write trace. -/
theorem processPatches_trace (ps : List Patch) :
    ∀ wb : List Nat,
      (processPatches ps wb false).2 = runTrace (writeTraceAll ps wb) wb := by
  induction ps with
  | nil => intro wb; rfl
  | cons p ps ih =>
    intro wb
    show (processPatches ps (processPatch p wb false).2 false).2 = _
    rw [ih, writeTraceAll, runTrace_append, processPatch_trace]

/-! ## Lemmas about the per-descriptor branches -/

/-- An empty scan result means even the first `indexOf` failed. -/
theorem findAllPositions_eq_nil {wb pat : List Nat}
    (h : findAllPositions wb pat = []) : bufIndexOf wb pat 0 = none := by
  rcases hidx : bufIndexOf wb pat 0 with _ | p
  · rfl
  · exfalso
    unfold findAllPositions at h
    simp [findAllPositionsAux, hidx] at h

/-- If the scan finds nothing, `Buffer.includes` is false as well. -/
theorem bufIncludes_eq_false {wb pat : List Nat}
    (h : findAllPositions wb pat = []) : bufIncludes wb pat = false := by
  rw [bufIncludes, findAllPositions_eq_nil h]
  rfl

/-- If no variant pattern occurs, the variant loop selects nothing. -/
theorem findVariant_eq_none {vs : List Variant} {wb : List Nat}
    (h : ∀ v ∈ vs, findAllPositions wb v.pattern = []) :
    findVariant vs wb = none := by
  induction vs with
  | nil => rfl
  | cons v vs ih =>
    have hv := h v (List.mem_cons_self v vs)
    simp only [findVariant, hv, List.isEmpty_nil, if_true]
    exact ih fun u hu => h u (List.mem_cons_of_mem v hu)

/-- A selected variant is a member, its position list is the scan of its own
pattern, and that list is non-empty. -/
theorem findVariant_some {vs : List Variant} {wb : List Nat} {v : Variant}
    {ps : List Nat} (h : findVariant vs wb = some (v, ps)) :
    v ∈ vs ∧ ps = findAllPositions wb v.pattern ∧ ps ≠ [] := by
  induction vs with
  | nil => simp [findVariant] at h
  | cons u us ih =>
    by_cases he : (findAllPositions wb u.pattern).isEmpty = true
    · simp only [findVariant, he, if_true] at h
      obtain ⟨h1, h2, h3⟩ := ih h
      exact ⟨List.mem_cons_of_mem u h1, h2, h3⟩
    · simp only [findVariant, he, if_false] at h
      obtain ⟨rfl, rfl⟩ := Prod.mk.injEq .. ▸ Option.some.injEq .. ▸ h
      exact ⟨List.mem_cons_self u us, rfl,
        fun hn => he (by rw [hn]; rfl)⟩

/-- The not-found, not-already-patched branch (src/patcher.ts:180-204): the
result is recorded as `found = 0`, `success = false`,
`alreadyPatched = false` and the buffer is untouched. -/
theorem processPatch_notfound (p : Patch) (wb : List Nat) (dr : Bool)
    (h0 : p.regexLit = none)
    (h : ∀ v ∈ allVariants p, findAllPositions wb v.pattern = [] ∧
      findAllPositions wb v.replacement = []) :
    processPatch p wb dr =
      ({ name := p.name, found := 0, success := false,
         alreadyPatched := false }, wb) := by
  have hfv : findVariant (allVariants p) wb = none :=
    findVariant_eq_none fun v hv => (h v hv).1
  have htot : ((allVariants p).map fun v =>
      (findAllPositions wb v.replacement).length).sum = 0 := by
    apply List.sum_eq_zero
    intro x hx
    rw [List.mem_map] at hx
    obtain ⟨v, hv, rfl⟩ := hx
    rw [(h v hv).2]
    rfl
  have hap :
      ((allVariants p).any fun v => bufIncludes wb v.replacement) = false := by
    rw [List.any_eq_false]
    intro v hv
    rw [bufIncludes_eq_false (h v hv).2]
    simp
  unfold processPatch
  simp only [h0, hfv]
  simp [htot, hap]

/-- The already-patched branch (src/patcher.ts:186-203): when no variant
pattern occurs but the primary replacement does, the result is upgraded to
`success = true`, `alreadyPatched = true` and the buffer is untouched. -/
theorem processPatch_already (p : Patch) (wb : List Nat) (dr : Bool)
    (h0 : p.regexLit = none)
    (h1 : ∀ v ∈ allVariants p, findAllPositions wb v.pattern = [])
    (h2 : findAllPositions wb p.replacement ≠ []) :
    processPatch p wb dr =
      ({ name := p.name, found := 0, success := true,
         alreadyPatched := true }, wb) := by
  have hfv := findVariant_eq_none h1
  have htot : 0 < ((allVariants p).map fun v =>
      (findAllPositions wb v.replacement).length).sum := by
    have hav : allVariants p = ⟨p.pattern, p.replacement⟩ :: p.variants := rfl
    rw [hav, List.map_cons, List.sum_cons]
    dsimp only
    have := List.length_pos.mpr h2
    omega
  unfold processPatch
  simp only [h0, hfv]
  simp [htot]

/-- A whole already-patched run: every descriptor reports
`found = 0, success = true, alreadyPatched = true` and the buffer is never
mutated. -/
theorem processPatches_already (ps : List Patch) (wb : List Nat) (dr : Bool)
    (h : ∀ p ∈ ps, p.regexLit = none ∧
      (∀ v ∈ allVariants p, findAllPositions wb v.pattern = []) ∧
      findAllPositions wb p.replacement ≠ []) :
    processPatches ps wb dr =
      (ps.map fun p => ({ name := p.name, found := 0, success := true,
                          alreadyPatched := true } : PatchResult), wb) := by
  induction ps with
  | nil => rfl
  | cons p ps ih =>
    obtain ⟨h0, h1, h2⟩ := h p (List.mem_cons_self p ps)
    have hstep := processPatch_already p wb dr h0 h1 h2
    have hrest := ih fun u hu => h u (List.mem_cons_of_mem p hu)
    simp only [processPatches, hstep, hrest, List.map_cons]

/-- Per descriptor, success-or-already-patched coincides with
found-or-already-patched. -/
theorem processPatch_success_or_already (p : Patch) (wb : List Nat)
    (dr : Bool) :
    ((processPatch p wb dr).1.success || (processPatch p wb dr).1.alreadyPatched)
      = (decide (0 < (processPatch p wb dr).1.found) ||
          (processPatch p wb dr).1.alreadyPatched) := by
  rcases hr : p.regexLit with _ | r
  · rcases hv : findVariant (allVariants p) wb with _ | vp
    · simp only [processPatch, hr, hv]
      split <;> simp
    · obtain ⟨v, ps⟩ := vp
      have hps : 0 < ps.length := List.length_pos.mpr (findVariant_some hv).2.2
      simp only [processPatch, hr, hv]
      simp [hps]
  · simp only [processPatch, hr]
    split
    · simp
    · rename_i hne
      have hlen : 0 < (findAllPositions (utf8Decode wb) r.source).length := by
        rw [List.length_pos]
        simpa [List.isEmpty_iff] using hne
      simp [hlen]

/-- The per-descriptor equivalence above, for every produced result. -/
theorem processPatches_success_or_already (ps : List Patch) (dr : Bool) :
    ∀ wb, ∀ r ∈ (processPatches ps wb dr).1,
      (r.success || r.alreadyPatched) =
        (decide (0 < r.found) || r.alreadyPatched) := by
  induction ps with
  | nil => intro wb r hr; simp [processPatches] at hr
  | cons p ps ih =>
    intro wb r hr
    simp only [processPatches, List.mem_cons] at hr
    rcases hr with rfl | hr
    · exact processPatch_success_or_already p wb dr
    · exact ih _ r hr

/-- Aggregate form of the equivalence. -/
theorem all_success_iff (rs : List PatchResult)
    (h : ∀ r ∈ rs, (r.success || r.alreadyPatched) =
      (decide (0 < r.found) || r.alreadyPatched)) :
    (rs.all fun r => r.success || r.alreadyPatched) = true ↔
      ∀ r ∈ rs, 0 < r.found ∨ r.alreadyPatched = true := by
  rw [List.all_eq_true]
  constructor
  · intro hall r hr
    have hh := hall r hr
    rw [h r hr] at hh
    simpa [Bool.or_eq_true, decide_eq_true_eq] using hh
  · intro hforall r hr
    rw [h r hr]
    simpa [Bool.or_eq_true, decide_eq_true_eq] using hforall r hr

/-! ## Claim theorems -/

/-- Claim C2.  The descriptor loop threads the working buffer: the descriptors of
a suffix always search the buffer already containing the prefix's
replacement writes (first conjunct), and concretely, for the buffer abc with
descriptor 1 rewriting a to x and descriptor 2 rewriting xb (present only
after descriptor 1) to yz, the order [1, 2] marks both descriptors found and
successful while the order [2, 1] marks descriptor 2 as
`found = 0, success = false, alreadyPatched = false`. -/
theorem patchDroid_ordering :
    (∀ (ps1 ps2 : List Patch) (wb : List Nat) (dr : Bool),
      processPatches (ps1 ++ ps2) wb dr =
        ((processPatches ps1 wb dr).1 ++
          (processPatches ps2 (processPatches ps1 wb dr).2 dr).1,
         (processPatches ps2 (processPatches ps1 wb dr).2 dr).2)) ∧
    (patchDroid optsOrd12 fsOrd).map
        (fun x => x.1.results.map fun r => (r.found, r.success, r.alreadyPatched))
      = .ok [(1, true, false), (1, true, false)] ∧
    (patchDroid optsOrd21 fsOrd).map
        (fun x => x.1.results.map fun r => (r.found, r.success, r.alreadyPatched))
      = .ok [(0, false, false), (1, true, false)] :=
  ⟨processPatches_append, rfl, rfl⟩

/-- Claim C3, counterexample.  A live invocation on the buffer ab with one
applicable descriptor (a to x) and one absent descriptor (q to z, both
pattern and replacement absent): the absent descriptor is recorded as
`found = 0, success = false, alreadyPatched = false`, yet the overall
aggregate `success` flag is `true`, because the post-write verification
only re-scans original patterns, which are all absent from the output. -/
theorem patchDroid_aggregate_cex :
    (patchDroid optsMix fsMix).map
        (fun x => (x.1.success,
          x.1.results.map fun r => (r.found, r.success, r.alreadyPatched)))
      = .ok (true, [(1, true, false), (0, false, false)]) := rfl

/-- Claim C3, amended.  When a descriptor's patterns and replacements are all
absent, its result is `found = 0, success = false, alreadyPatched = false`
and the buffer is untouched (first conjunct); processing always continues,
one result per descriptor (second conjunct); and the aggregate `success`
flag is `false` whenever no descriptor could be applied (third conjunct).
When another descriptor is applied, the aggregate flag instead reflects
post-write verification and can be `true` despite the failed descriptor. -/
theorem patchDroid_pattern_absent :
    (∀ (p : Patch) (wb : List Nat) (dr : Bool), p.regexLit = none →
      (∀ v ∈ allVariants p, findAllPositions wb v.pattern = [] ∧
        findAllPositions wb v.replacement = []) →
      processPatch p wb dr =
        ({ name := p.name, found := 0, success := false,
           alreadyPatched := false }, wb)) ∧
    (∀ (ps : List Patch) (wb : List Nat) (dr : Bool),
      (processPatches ps wb dr).1.length = ps.length) ∧
    (∀ (opts : PatchOptions) (fs : FS) (data : List Nat),
      opts.dryRun = false →
      fsRead fs opts.inputPath = some data →
      (processPatches opts.patches data false).1.filter
        (fun r => decide (0 < r.found) && !r.alreadyPatched) = [] →
      ((processPatches opts.patches data false).1.all (·.alreadyPatched))
        = false →
      patchDroid opts fs =
        .ok ({ success := false,
               results := (processPatches opts.patches data false).1 }, fs)) := by
  refine ⟨fun p wb dr h0 h => processPatch_notfound p wb dr h0 h,
    fun ps wb dr => processPatches_length ps wb dr, ?_⟩
  intro opts fs data hdry hread hfil hall
  unfold patchDroid
  rw [hread]
  simp only [hdry]
  rw [hfil]
  simp only [List.isEmpty_nil, if_true]
  rw [hall]
  simp

/-- Closed instance of the amended C3: the inapplicable descriptor's
result, the run length, and the aggregate failure when nothing applies. -/
theorem patchDroid_pattern_absent_witness :
    processPatch dAbsent [97, 98] false =
      ({ name := "dB", found := 0, success := false,
         alreadyPatched := false }, [97, 98]) ∧
    (processPatches [dOne, dAbsent] [97, 98] false).1.length = 2 ∧
    patchDroid optsFail fsMix =
      .ok ({ success := false,
             results := (processPatches optsFail.patches [97, 98] false).1 },
        fsMix) :=
  ⟨patchDroid_pattern_absent.1 dAbsent [97, 98] false rfl (by decide),
   patchDroid_pattern_absent.2.1 [dOne, dAbsent] [97, 98] false,
   patchDroid_pattern_absent.2.2 optsFail fsMix [97, 98] rfl rfl
     (by decide) (by decide)⟩

/-- Claim C6.  If the input file does not exist, `patchDroid` raises before
reading, writing, copying or changing anything: it returns the error value
and the filesystem is untouched (no successful result is produced). -/
theorem patchDroid_missing_input (opts : PatchOptions) (fs : FS)
    (h : fsRead fs opts.inputPath = none) :
    patchDroid opts fs = .error ("Binary not found: " ++ opts.inputPath) := by
  unfold patchDroid
  rw [h]

/-- Closed instance of C6 on an empty filesystem. -/
theorem patchDroid_missing_input_witness :
    patchDroid optsOrd12 ([] : FS) =
      .error ("Binary not found: " ++ optsOrd12.inputPath) :=
  patchDroid_missing_input optsOrd12 [] rfl

/-- Claim C4.  Idempotence: a live run on a file that already contains every
descriptor's replacement and none of the variant patterns reports every
descriptor as `alreadyPatched = true, success = true, found = 0`, returns
overall `success = true`, `noPatchNeeded = true` and
`outputPath = inputPath`, and leaves the filesystem untouched (no output
file, no backup file). -/
theorem patchDroid_idempotent (opts : PatchOptions) (fs : FS)
    (data : List Nat)
    (hdry : opts.dryRun = false)
    (hread : fsRead fs opts.inputPath = some data)
    (h : ∀ p ∈ opts.patches, p.regexLit = none ∧
      (∀ v ∈ allVariants p, findAllPositions data v.pattern = []) ∧
      findAllPositions data p.replacement ≠ []) :
    patchDroid opts fs =
      .ok ({ success := true, outputPath := some opts.inputPath,
             results := opts.patches.map fun p =>
               ({ name := p.name, found := 0, success := true,
                  alreadyPatched := true } : PatchResult),
             noPatchNeeded := true }, fs) ∧
    ∀ r ∈ (processPatches opts.patches data opts.dryRun).1,
      r.found = 0 ∧ r.success = true ∧ r.alreadyPatched = true := by
  have hproc := processPatches_already opts.patches data opts.dryRun h
  have hprocF := processPatches_already opts.patches data false h
  constructor
  · unfold patchDroid
    rw [hread]
    simp only [hdry, hprocF]
    have hfil : (opts.patches.map fun p =>
        ({ name := p.name, found := 0, success := true,
           alreadyPatched := true } : PatchResult)).filter
          (fun r => decide (0 < r.found) && !r.alreadyPatched) = [] := by
      rw [List.filter_eq_nil_iff]
      intro r hr
      rw [List.mem_map] at hr
      obtain ⟨p, _, rfl⟩ := hr
      simp
    have hall : ((opts.patches.map fun p =>
        ({ name := p.name, found := 0, success := true,
           alreadyPatched := true } : PatchResult)).all (·.alreadyPatched))
          = true := by
      rw [List.all_eq_true]
      intro r hr
      rw [List.mem_map] at hr
      obtain ⟨p, _, rfl⟩ := hr
      rfl
    rw [hfil]
    simp only [List.isEmpty_nil, if_true]
    rw [hall]
    simp
  · rw [hproc]
    intro r hr
    rw [List.mem_map] at hr
    obtain ⟨p, _, rfl⟩ := hr
    exact ⟨rfl, rfl, rfl⟩

/-- Closed instance of C4: re-running the descriptor on its own output. -/
theorem patchDroid_idempotent_witness :
    patchDroid optsAP fsAP =
      .ok ({ success := true, outputPath := some "bin",
             results := [{ name := "d1", found := 0, success := true,
                           alreadyPatched := true }],
             noPatchNeeded := true }, fsAP) ∧
    ∀ r ∈ (processPatches optsAP.patches [120, 98] optsAP.dryRun).1,
      r.found = 0 ∧ r.success = true ∧ r.alreadyPatched = true :=
  patchDroid_idempotent optsAP fsAP [120, 98] rfl rfl (by decide)

/-- Claim C5.  A dry run never mutates the working buffer and never touches the
filesystem (the returned filesystem is the input one, so no output file, no
backup file, and the input file is byte-for-byte unchanged), and its overall
`success` flag is `true` exactly when every descriptor is either found
(`found > 0`) or already patched. -/
theorem patchDroid_dryRun (opts : PatchOptions) (fs : FS) (data : List Nat)
    (hdry : opts.dryRun = true)
    (hread : fsRead fs opts.inputPath = some data) :
    patchDroid opts fs =
      .ok ({ success := (processPatches opts.patches data true).1.all
               fun r => r.success || r.alreadyPatched,
             dryRun := true,
             results := (processPatches opts.patches data true).1 }, fs) ∧
    (processPatches opts.patches data true).2 = data ∧
    (((processPatches opts.patches data true).1.all
        fun r => r.success || r.alreadyPatched) = true ↔
      ∀ r ∈ (processPatches opts.patches data true).1,
        0 < r.found ∨ r.alreadyPatched = true) := by
  refine ⟨?_, processPatches_dry _ _,
    all_success_iff _ (processPatches_success_or_already opts.patches true data)⟩
  unfold patchDroid
  rw [hread]
  simp only [hdry]
  simp

/-- Closed instance of C5 with one matchable and one absent descriptor. -/
theorem patchDroid_dryRun_witness :
    patchDroid optsDry fsMix =
      .ok ({ success := (processPatches optsDry.patches [97, 98] true).1.all
               fun r => r.success || r.alreadyPatched,
             dryRun := true,
             results := (processPatches optsDry.patches [97, 98] true).1 },
        fsMix) ∧
    (processPatches optsDry.patches [97, 98] true).2 = [97, 98] ∧
    (((processPatches optsDry.patches [97, 98] true).1.all
        fun r => r.success || r.alreadyPatched) = true ↔
      ∀ r ∈ (processPatches optsDry.patches [97, 98] true).1,
        0 < r.found ∨ r.alreadyPatched = true) :=
  patchDroid_dryRun optsDry fsMix [97, 98] rfl rfl

/-- Claim C7.  Backup safety: an existing backup file is never overwritten (first
conjunct); when backups are enabled, no backup exists yet and at least one
patch is applied, the backup is created with exactly the original input
bytes (second conjunct); and invoking the engine twice in place leaves one
backup holding the original pre-patch input, the second invocation changing
nothing (third conjunct).  The first two conjuncts assume the output path
differs from the backup path, as in every intended use. -/
theorem patchDroid_backup_safety :
    (∀ (opts : PatchOptions) (fs : FS) (c : List Nat)
        (res : PatchDroidResult) (fs₂ : FS),
      opts.outputPath.getD (opts.inputPath ++ ".patched") ≠
        opts.inputPath ++ ".backup" →
      fsRead fs (opts.inputPath ++ ".backup") = some c →
      patchDroid opts fs = .ok (res, fs₂) →
      fsRead fs₂ (opts.inputPath ++ ".backup") = some c) ∧
    (∀ (opts : PatchOptions) (fs : FS) (data : List Nat)
        (res : PatchDroidResult) (fs₂ : FS),
      opts.backup = true →
      opts.outputPath.getD (opts.inputPath ++ ".patched") ≠
        opts.inputPath ++ ".backup" →
      fsRead fs (opts.inputPath ++ ".backup") = none →
      fsRead fs opts.inputPath = some data →
      patchDroid opts fs = .ok (res, fs₂) →
      res.patchedCount.isSome = true →
      fsRead fs₂ (opts.inputPath ++ ".backup") = some data) ∧
    ((patchDroid optsBk fsBk).map (fun x => x.2) = .ok fsBk1 ∧
      (patchDroid optsBk fsBk1).map (fun x => x.2) = .ok fsBk1 ∧
      fsRead fsBk1 ("bin" ++ ".backup") = some [97, 98]) := by
  refine ⟨?_, ?_, rfl, rfl, rfl⟩
  · intro opts fs c res fs₂ hne hback heq
    unfold patchDroid at heq
    rcases hread : fsRead fs opts.inputPath with _ | data
    · rw [hread] at heq
      simp at heq
    · rw [hread] at heq
      dsimp only at heq
      have hbp : opts.inputPath ++ ".backup" ≠
          opts.outputPath.getD (opts.inputPath ++ ".patched") :=
        fun he => hne he.symm
      split at heq
      · simp only [Except.ok.injEq, Prod.mk.injEq] at heq
        obtain ⟨rfl, rfl⟩ := heq
        exact hback
      · split at heq
        · split at heq
          · simp only [Except.ok.injEq, Prod.mk.injEq] at heq
            obtain ⟨rfl, rfl⟩ := heq
            exact hback
          · simp only [Except.ok.injEq, Prod.mk.injEq] at heq
            obtain ⟨rfl, rfl⟩ := heq
            exact hback
        · simp only [Except.ok.injEq, Prod.mk.injEq] at heq
          obtain ⟨rfl, rfl⟩ := heq
          rw [fsRead_fsWrite_ne _ _ _ _ hbp]
          split
          · simp [hback]
          · exact hback
  · intro opts fs data res fs₂ hbk hne hnone hread heq hsome
    unfold patchDroid at heq
    rw [hread] at heq
    dsimp only at heq
    have hbp : opts.inputPath ++ ".backup" ≠
        opts.outputPath.getD (opts.inputPath ++ ".patched") :=
      fun he => hne he.symm
    split at heq
    · simp only [Except.ok.injEq, Prod.mk.injEq] at heq
      obtain ⟨rfl, rfl⟩ := heq
      simp at hsome
    · split at heq
      · split at heq
        · simp only [Except.ok.injEq, Prod.mk.injEq] at heq
          obtain ⟨rfl, rfl⟩ := heq
          simp at hsome
        · simp only [Except.ok.injEq, Prod.mk.injEq] at heq
          obtain ⟨rfl, rfl⟩ := heq
          simp at hsome
      · simp only [Except.ok.injEq, Prod.mk.injEq] at heq
        obtain ⟨rfl, rfl⟩ := heq
        rw [fsRead_fsWrite_ne _ _ _ _ hbp]
        rw [hnone]
        simp only [Option.isSome_none, Bool.false_eq_true, if_false]
        unfold fsCopy
        rw [hread]
        exact fsRead_fsWrite_same _ _ _

/-- Closed instances of C7: a pre-existing backup survives a live patching
run unchanged, and a first run creates the backup with the original
bytes. -/
theorem patchDroid_backup_safety_witness :
    fsRead [("bin", [120, 98]), ("bin.backup", [5, 6])] ("bin" ++ ".backup")
      = some [5, 6] ∧
    fsRead fsBk1 ("bin" ++ ".backup") = some [97, 98] :=
  ⟨patchDroid_backup_safety.1 optsBk fsBkPre [5, 6]
      { success := true, dryRun := false,
        results := [{ name := "d1", found := 1, positions := some [0],
                      success := true, alreadyPatched := false }],
        outputPath := some "bin", noPatchNeeded := false,
        patchedCount := some 1 }
      [("bin", [120, 98]), ("bin.backup", [5, 6])]
      (by decide) rfl rfl,
   patchDroid_backup_safety.2.1 optsBk fsBk [97, 98]
      { success := true, dryRun := false,
        results := [{ name := "d1", found := 1, positions := some [0],
                      success := true, alreadyPatched := false }],
        outputPath := some "bin", noPatchNeeded := false,
        patchedCount := some 1 }
      fsBk1 rfl (by decide) rfl rfl rfl rfl⟩

/-- Claim C9.  Length preservation: whenever a live or dry run returns an output
path, the file at that path in the returned filesystem has exactly the
input's byte length — the working buffer is created at the input's size and
every edit is an in-place overwrite. -/
theorem patchDroid_length_preserved (opts : PatchOptions) (fs : FS)
    (data : List Nat) (res : PatchDroidResult) (fs₂ : FS)
    (hread : fsRead fs opts.inputPath = some data)
    (heq : patchDroid opts fs = .ok (res, fs₂)) :
    ∀ outPath, res.outputPath = some outPath →
      ∃ out, fsRead fs₂ outPath = some out ∧ out.length = data.length := by
  intro outPath hout
  unfold patchDroid at heq
  rw [hread] at heq
  dsimp only at heq
  split at heq
  · simp only [Except.ok.injEq, Prod.mk.injEq] at heq
    obtain ⟨rfl, rfl⟩ := heq
    simp at hout
  · split at heq
    · split at heq
      · simp only [Except.ok.injEq, Prod.mk.injEq] at heq
        obtain ⟨rfl, rfl⟩ := heq
        obtain rfl : opts.inputPath = outPath := Option.some.inj hout
        exact ⟨data, hread, rfl⟩
      · simp only [Except.ok.injEq, Prod.mk.injEq] at heq
        obtain ⟨rfl, rfl⟩ := heq
        simp at hout
    · simp only [Except.ok.injEq, Prod.mk.injEq] at heq
      obtain ⟨rfl, rfl⟩ := heq
      obtain rfl : opts.outputPath.getD (opts.inputPath ++ ".patched")
          = outPath := Option.some.inj hout
      exact ⟨(processPatches opts.patches data opts.dryRun).2,
        fsRead_fsWrite_same _ _ _, processPatches_buflen _ _ _⟩

/-- Closed instance of C9 on the ordering scenario. -/
theorem patchDroid_length_preserved_witness :
    ∃ out, fsRead [("bin.patched", [121, 122, 99]), ("bin", [97, 98, 99])]
        "bin.patched" = some out ∧ out.length = ([97, 98, 99] : List Nat).length :=
  patchDroid_length_preserved optsOrd12 fsOrd [97, 98, 99]
    { success := true, dryRun := false,
      results := [{ name := "d1", found := 1, positions := some [0],
                    success := true, alreadyPatched := false },
                  { name := "d2", found := 1, positions := some [0],
                    success := true, alreadyPatched := false }],
      outputPath := some "bin.patched", noPatchNeeded := false,
      patchedCount := some 2 }
    [("bin.patched", [121, 122, 99]), ("bin", [97, 98, 99])]
    rfl rfl "bin.patched" rfl

/-- Claim C10.  Frame property: in a live run over byte-variant descriptors with
equal-length pattern/replacement pairs, every byte of the file at the
returned output path whose offset lies outside all applied overwrite
regions `[pos, pos + replacement.length)` equals the corresponding byte of
the original input. -/
theorem patchDroid_frame (opts : PatchOptions) (fs : FS) (data : List Nat)
    (res : PatchDroidResult) (fs₂ : FS) (j : Nat)
    (hdry : opts.dryRun = false)
    (hread : fsRead fs opts.inputPath = some data)
    (_hbyte : ∀ p ∈ opts.patches, p.regexLit = none ∧
      ∀ v ∈ allVariants p, v.pattern.length = v.replacement.length)
    (heq : patchDroid opts fs = .ok (res, fs₂))
    (hj : ∀ w ∈ writeTraceAll opts.patches data,
      j < w.1 ∨ w.1 + w.2.length ≤ j) :
    ∀ outPath, res.outputPath = some outPath →
      ∃ out, fsRead fs₂ outPath = some out ∧ out[j]? = data[j]? := by
  intro outPath hout
  unfold patchDroid at heq
  rw [hread] at heq
  dsimp only at heq
  simp only [hdry, Bool.false_eq_true, if_false] at heq
  split at heq
  · split at heq
    · simp only [Except.ok.injEq, Prod.mk.injEq] at heq
      obtain ⟨rfl, rfl⟩ := heq
      obtain rfl : opts.inputPath = outPath := Option.some.inj hout
      exact ⟨data, hread, rfl⟩
    · simp only [Except.ok.injEq, Prod.mk.injEq] at heq
      obtain ⟨rfl, rfl⟩ := heq
      simp at hout
  · simp only [Except.ok.injEq, Prod.mk.injEq] at heq
    obtain ⟨rfl, rfl⟩ := heq
    obtain rfl : opts.outputPath.getD (opts.inputPath ++ ".patched")
        = outPath := Option.some.inj hout
    refine ⟨(processPatches opts.patches data false).2,
      fsRead_fsWrite_same _ _ _, ?_⟩
    rw [processPatches_trace]
    exact runTrace_frame _ j hj data

/-- Closed instance of C10: byte 2 of the ordering scenario's output (just
past both overwritten regions) is the original byte. -/
theorem patchDroid_frame_witness :
    ∃ out, fsRead [("bin.patched", [121, 122, 99]), ("bin", [97, 98, 99])]
        "bin.patched" = some out ∧
      out[2]? = ([97, 98, 99] : List Nat)[2]? :=
  patchDroid_frame optsOrd12 fsOrd [97, 98, 99]
    { success := true, dryRun := false,
      results := [{ name := "d1", found := 1, positions := some [0],
                    success := true, alreadyPatched := false },
                  { name := "d2", found := 1, positions := some [0],
                    success := true, alreadyPatched := false }],
      outputPath := some "bin.patched", noPatchNeeded := false,
      patchedCount := some 2 }
    [("bin.patched", [121, 122, 99]), ("bin", [97, 98, 99])] 2
    rfl rfl (by decide) rfl (by decide) "bin.patched" rfl

/-- Claim C8, counterexample.  For the regex descriptor replacing the text ab by
cd on the buffer é a b (bytes 195 169 97 98), the result's `positions`
field is `[1]` — the character index of the match in the decoded text —
while the matched text occurs in the working buffer at byte offset 2, and
no occurrence starts at byte offset 1.  So for regex descriptors
`positions` does not list byte offsets. -/
theorem processPatch_positions_cex :
    (processPatch pRegex eAbBuf false).1.positions = some [1] ∧
    findAllPositions eAbBuf [97, 98] = [2] ∧
    matchAtL eAbBuf [97, 98] 1 = false := by decide

/-- Claim C8, amended.  For byte-variant descriptors with at least one occurrence,
`positions` is exactly the byte-offset list of the matched variant's
occurrences in the working buffer, and the buffer bytes at each listed
offset equal that variant's pattern (first conjunct).  For regex
descriptors, `positions` instead lists the character indices of the matches
in the UTF-8-decoded text, which coincide with byte offsets only when every
byte before a match encodes a single-byte character (second conjunct). -/
theorem processPatch_positions :
    (∀ (p : Patch) (wb : List Nat) (dr : Bool) (v : Variant) (ps : List Nat),
      p.regexLit = none → findVariant (allVariants p) wb = some (v, ps) →
      (processPatch p wb dr).1.positions = some ps ∧
      ps = findAllPositions wb v.pattern ∧
      ∀ q ∈ ps, (wb.drop q).take v.pattern.length = v.pattern) ∧
    (∀ (p : Patch) (wb : List Nat) (dr : Bool) (r : RegexLit),
      p.regexLit = some r →
      (findAllPositions (utf8Decode wb) r.source).isEmpty = false →
      (processPatch p wb dr).1.positions =
        some (findAllPositions (utf8Decode wb) r.source)) := by
  constructor
  · intro p wb dr v ps h0 hv
    obtain ⟨_, hps, _⟩ := findVariant_some hv
    refine ⟨?_, hps, ?_⟩
    · simp only [processPatch, h0, hv]
    · intro q hq
      subst hps
      exact of_decide_eq_true (findAllPositionsAux_mem_match hq)
  · intro p wb dr r hr hne
    simp only [processPatch, hr, hne, Bool.false_eq_true, if_false]

/-- Closed instances of the amended C8: the byte-variant conjunct on the
buffer ab with the descriptor a to x, and the regex conjunct on the é a b
buffer. -/
theorem processPatch_positions_witness :
    ((processPatch dOne [97, 98] false).1.positions = some [0] ∧
      [0] = findAllPositions [97, 98] (Variant.mk [97] [120]).pattern ∧
      ∀ q ∈ [0], (([97, 98] : List Nat).drop q).take
        (Variant.mk [97] [120]).pattern.length = (Variant.mk [97] [120]).pattern) ∧
    (processPatch pRegex eAbBuf false).1.positions =
      some (findAllPositions (utf8Decode eAbBuf) [97, 98]) :=
  ⟨processPatch_positions.1 dOne [97, 98] false (Variant.mk [97] [120]) [0]
      rfl (by decide),
   processPatch_positions.2 pRegex eAbBuf false
      { source := [97, 98], replacementText := [99, 100] } rfl (by decide)⟩

end DroidPatch
